import Mathlib

/-!
# Verification of the openhands-aci file-editing engine

A shallow embedding of the core of `openhands_aci/editor/` and proofs about it:

* text utilities mirroring the Python string primitives the editor relies on
  (`str.expandtabs`, `str.count`, `str.replace`, `str.splitlines(keepends=True)`,
  leading-whitespace stripping),
* `FileHistoryManager` (`history.py`): per-path bounded snapshot log,
* `FileCache` (`file_cache.py`): size-capped record store with
  oldest-by-creation-time eviction,
* `OHEditor` command dispatch (`editor.py`): `create` / `str_replace` / `insert`
  / `undo_edit`,
* `OHDiffEditor` fenced SEARCH/REPLACE matching (`diff_editor.py`),
* `GeminiEditor.replace` (`gemini_editor.py`): EOL-agnostic single-command
  replacement with structured error reporting.

Text is modelled as `List Char` (the sources only ever manipulate decoded
text).  The per-path slice of the filesystem is one `Option (List Char)`:
`none` means the target path does not exist.

`editor.py` imports `read_file_range` and `replace_in_file` from a `file_ops`
module that is not part of the source tree; those two functions are modelled
from the specification (see their doc comments).
-/

namespace OHAci

/-- Text content: a decoded string as a list of characters. -/
abbrev Text := List Char

/-- Convert a Lean string literal to the `Text` model. -/
def str (s : String) : Text := s.data

/-- The ASCII whitespace characters stripped by Python's `str.strip` /
`str.lstrip` with no argument (on the ASCII fragment we model). -/
def isSpaceChar (c : Char) : Bool :=
  c = ' ' || c = '\t' || c = '\n' || c = '\r' || c = '\x0b' || c = '\x0c'

/-- Python `line.lstrip()`: drop leading whitespace. -/
def lstripText (l : Text) : Text := l.dropWhile isSpaceChar

/-- The leading whitespace of a line (everything `lstrip` removes). -/
def leadWs (l : Text) : Text := l.takeWhile isSpaceChar

/-- Python `line.strip() == ''`: the line holds no non-whitespace character. -/
def isBlank (l : Text) : Bool := l.all isSpaceChar

/-- One step of Python `str.expandtabs()` (tab stop width 8): a tab is
replaced by spaces up to the next multiple of 8, `\n` and `\r` reset the
column, every other character advances the column by one. -/
def expandTabsAux : Text → Nat → Text
  | [], _ => []
  | c :: rest, col =>
    if c = '\t' then
      let n := 8 - col % 8
      List.replicate n ' ' ++ expandTabsAux rest (col + n)
    else if c = '\n' || c = '\r' then
      c :: expandTabsAux rest 0
    else
      c :: expandTabsAux rest (col + 1)

/-- Python `s.expandtabs()` with the default tab size of 8. -/
def expandTabs (s : Text) : Text := expandTabsAux s 0

/-- Fuel-driven scan listing the 0-based start indices of the leftmost
non-overlapping occurrences of a non-empty pattern, exactly as Python's
`str.count` / `str.replace` walk the string.  The fuel is always called with
at least `s.length`, which the scan never exhausts. -/
def occStartsGo (pat : Text) : Nat → Text → Nat → List Nat
  | _, [], _ => []
  | 0, _, _ => []
  | fuel + 1, c :: rest, i =>
    if pat.isPrefixOf (c :: rest) then
      i :: occStartsGo pat fuel (rest.drop (pat.length - 1)) (i + pat.length)
    else
      occStartsGo pat fuel rest (i + 1)

/-- 0-based start indices of the leftmost non-overlapping occurrences of
`pat` in `s`.  For the empty pattern Python finds an occurrence at every
position, `s.length + 1` in total. -/
def occStarts (pat s : Text) : List Nat :=
  if pat = [] then List.range (s.length + 1) else occStartsGo pat s.length s 0

/-- Python `s.count(pat)`: number of non-overlapping occurrences. -/
def countOcc (pat s : Text) : Nat := (occStarts pat s).length

/-- Python `pat in s`: substring containment. -/
def containsSub (pat s : Text) : Bool := !(occStarts pat s).isEmpty

/-- Fuel-driven core of Python `s.replace(pat, rep)` for a non-empty
pattern: leftmost non-overlapping occurrences, each replaced by `rep`. -/
def replaceAllGo (pat rep : Text) : Nat → Text → Text
  | _, [] => []
  | 0, s => s
  | fuel + 1, c :: rest =>
    if pat.isPrefixOf (c :: rest) then
      rep ++ replaceAllGo pat rep fuel (rest.drop (pat.length - 1))
    else
      c :: replaceAllGo pat rep fuel rest

/-- Python `s.replace(pat, rep)`.  (Guarded against the empty pattern, which
no call site of the sources uses.) -/
def replaceAll (pat rep s : Text) : Text :=
  if pat = [] then s else replaceAllGo pat rep s.length s

/-- 1-based line number of character position `i` in `s`: one more than the
number of newline characters strictly before `i`. -/
def lineNumberAt (s : Text) (i : Nat) : Nat :=
  1 + ((s.take i).filter (fun c => c = '\n')).length

/-- Accumulating splitter behind `splitKeepEnds`; `cur` holds the current
line reversed. -/
def splitKeepEndsGo : Text → Text → List Text
  | [], cur => if cur = [] then [] else [cur.reverse]
  | '\r' :: '\n' :: rest, cur => (cur.reverse ++ ['\r', '\n']) :: splitKeepEndsGo rest []
  | '\r' :: rest, cur => (cur.reverse ++ ['\r']) :: splitKeepEndsGo rest []
  | '\n' :: rest, cur => (cur.reverse ++ ['\n']) :: splitKeepEndsGo rest []
  | c :: rest, cur => splitKeepEndsGo rest (c :: cur)

/-- Python `str.splitlines(keepends=True)` restricted to the `\n`, `\r\n`
and `\r` line boundaries the editor meets; each line keeps its terminator. -/
def splitKeepEnds (s : Text) : List Text :=
  splitKeepEndsGo s []

/-- Number of lines of a file as counted by `sum(1 for _ in open(path))`. -/
def numLines (s : Text) : Nat := (splitKeepEnds s).length

/-! ## `FileHistoryManager` (`history.py`)

The per-path slice of the manager's state: the metadata record
`{'entries': [...], 'counter': n}` plus the stored snapshots, an
insertion-ordered association list from sequence number to content
(the backing `FileCache` of the history manager is created without a size
limit, so its stores and deletes are plain map updates). -/

/-- Per-path history state. -/
structure HistState where
  entries : List Nat
  counter : Nat
  snaps : List (Nat × Text)
  deriving DecidableEq, Repr

/-- The empty history metadata `{'entries': [], 'counter': 0}`. -/
def histInit : HistState := ⟨[], 0, []⟩

/-- `cache.set` on the snapshot store: overwrite the key if present,
append otherwise. -/
def snapSet (snaps : List (Nat × Text)) (k : Nat) (v : Text) : List (Nat × Text) :=
  if snaps.any (fun p => p.1 = k) then
    snaps.map (fun p => if p.1 = k then (k, v) else p)
  else
    snaps ++ [(k, v)]

/-- `cache.delete` on the snapshot store. -/
def snapDelete (snaps : List (Nat × Text)) (k : Nat) : List (Nat × Text) :=
  snaps.filter (fun p => p.1 ≠ k)

/-- `cache.get` on the snapshot store. -/
def snapGet (snaps : List (Nat × Text)) (k : Nat) : Option Text :=
  (snaps.find? (fun p => p.1 = k)).map (fun p => p.2)

/-- The `while len(metadata['entries']) > self.max_history_per_file` loop of
`add_history`: pop the head (lowest counter) of the live list and delete its
snapshot until the list fits. -/
def evictHistory (maxH : Nat) : List Nat → List (Nat × Text) → List Nat × List (Nat × Text)
  | [], snaps => ([], snaps)
  | e :: rest, snaps =>
    if (e :: rest).length > maxH then
      evictHistory maxH rest (snapDelete snaps e)
    else
      (e :: rest, snaps)

/-- `FileHistoryManager.add_history`: store the content under the current
counter, append the counter to the live list, increment the counter, then
evict from the front while the list exceeds `max_history_per_file`. -/
def addHistory (maxH : Nat) (h : HistState) (content : Text) : HistState :=
  ⟨(evictHistory maxH (h.entries ++ [h.counter]) (snapSet h.snaps h.counter content)).1,
   h.counter + 1,
   (evictHistory maxH (h.entries ++ [h.counter]) (snapSet h.snaps h.counter content)).2⟩

/-- `FileHistoryManager.pop_last_history`: remove and return the most recent
entry, or `none` (state untouched) if the live list is empty.  When the
snapshot record is missing the entry is still dropped from the list but
nothing is deleted. -/
def popLastHistory (h : HistState) : Option Text × HistState :=
  match h.entries.getLast? with
  | none => (none, h)
  | some last =>
    let content := snapGet h.snaps last
    let snaps := match content with
      | none => h.snaps
      | some _ => snapDelete h.snaps last
    (content, ⟨h.entries.dropLast, h.counter, snaps⟩)

/-- A sequence of `add_history` calls. -/
def addAllHistory (maxH : Nat) (h : HistState) (cs : List Text) : HistState :=
  cs.foldl (addHistory maxH) h

/-! ## `FileCache` (`file_cache.py`)

One record per key: `(key, size, creation time)`.  The directory scan order
of `glob` is modelled by list order; `current_size` is maintained by the code
exactly as the sum of the stored record sizes, so the model computes the sum.
Overwriting a key rewrites its file, which renews its inode change time
(`os.path.getctime`), hence overwrite re-stamps the record with the current
clock. -/

/-- One physical cache record. -/
structure CacheRec where
  key : String
  size : Nat
  time : Nat
  deriving DecidableEq, Repr

/-- State of a `FileCache` directory plus a logical creation clock. -/
structure CacheState where
  recs : List CacheRec
  clock : Nat
  deriving DecidableEq, Repr

/-- The empty cache directory. -/
def cacheInit : CacheState := ⟨[], 0⟩

/-- Total size of the stored records (`self.current_size`). -/
def totalSize (recs : List CacheRec) : Nat := (recs.map (fun r => r.size)).sum

/-- One step of Python's `min` by `getctime`: keep the earlier-created of
the accumulator and the next record (the first seen wins ties). -/
def minStep (acc : Option CacheRec) (r : CacheRec) : Option CacheRec :=
  match acc with
  | none => some r
  | some m => if r.time < m.time then some r else acc

/-- The record `_evict_oldest` picks: minimal creation time among records
other than the excluded path (first of the scan order on ties). -/
def oldestExcluding (recs : List CacheRec) (excl : Option String) : Option CacheRec :=
  (recs.filter (fun r => excl ≠ some r.key)).foldl minStep none

/-- `FileCache._evict_oldest`: remove the oldest-created record other than
the excluded one.  (Python's `min` has no candidate and raises when every
record is excluded; the eviction loop's guard keeps that unreachable.) -/
def evictOldest (recs : List CacheRec) (excl : Option String) : List CacheRec :=
  match oldestExcluding recs excl with
  | none => recs
  | some m => recs.erase m

/-- The `while self.current_size + need > self.size_limit and len(self) > 1`
eviction loop of `FileCache.set`.  The fuel equals the record count at entry;
each iteration removes one record, so the fuel never runs out. -/
def cacheEvictGo (limit need : Nat) (excl : Option String) :
    Nat → List CacheRec → List CacheRec
  | 0, recs => recs
  | fuel + 1, recs =>
    if totalSize recs + need > limit ∧ recs.length > 1 then
      match oldestExcluding recs excl with
      | none => recs
      | some m => cacheEvictGo limit need excl fuel (recs.erase m)
    else
      recs

/-- Entry point of the eviction loop. -/
def cacheEvict (limit need : Nat) (excl : Option String) (recs : List CacheRec) :
    List CacheRec :=
  cacheEvictGo limit need excl recs.length recs

/-- `FileCache.set` for a record of byte size `size`: with a configured
limit, evict before a growing write (excluding the record being written);
then replace or append the record, stamped with the current clock. -/
def cacheSet (limit : Option Nat) (st : CacheState) (key : String) (size : Nat) :
    CacheState :=
  let oldRec := st.recs.find? (fun r => r.key = key)
  let recs₁ :=
    match limit with
    | none => st.recs
    | some l =>
      match oldRec with
      | some old =>
        if size > old.size then
          cacheEvict l (size - old.size) (some key) st.recs
        else
          st.recs
      | none => cacheEvict l size (some key) st.recs
  let recs₂ := recs₁.filter (fun r => r.key ≠ key)
  ⟨recs₂ ++ [⟨key, size, st.clock⟩], st.clock + 1⟩

/-- `FileCache.delete`. -/
def cacheDelete (st : CacheState) (key : String) : CacheState :=
  ⟨st.recs.filter (fun r => r.key ≠ key), st.clock⟩

/-- `FileCache.clear`. -/
def cacheClear (st : CacheState) : CacheState := ⟨[], st.clock⟩

/-- The mutating cache operations, for reasoning over reachable states. -/
inductive CacheOp where
  | set (key : String) (size : Nat)
  | del (key : String)
  | clear
  deriving DecidableEq, Repr

/-- Run a sequence of cache operations. -/
def cacheRun (limit : Option Nat) (st : CacheState) : List CacheOp → CacheState
  | [] => st
  | op :: rest =>
    let st' :=
      match op with
      | .set key size => cacheSet limit st key size
      | .del key => cacheDelete st key
      | .clear => cacheClear st
    cacheRun limit st' rest

/-! ## `OHEditor` (`editor.py`)

The per-path slice of the editor: the target file's content (`none` when the
path does not exist) and its history.  Directory targets, linting and the
`cat -n` style rendering of snippets are collaborator / formatting concerns
no claim touches; the snippet window text is elided from the `output` field
of results (only its presence and the mutation/ history effects are claimed).
-/

/-- `OHEditor.__init__` passes `max_history_per_file=10`. -/
def maxHistoryPerFile : Nat := 10

/-- Errors of the editor taxonomy (`exceptions.py`), carried structurally;
`renderErr` produces the user-visible message. `attributeErr` models a
Python `AttributeError` escaping from an access to an attribute the target
object does not define — it is not a `ToolError`. -/
inductive EdError where
  | missingParam (command param : String)
  | invalidParam (param hint : String)
  | toolError (msg : Text)
  | ambiguousOccurrences (oldStr : Text) (lines : List Nat)
  | attributeErr (attr : String)
  deriving DecidableEq, Repr

/-- The user-visible message of an error (`exceptions.py` message layouts;
the ambiguity message is the one `OHEditor.str_replace` rebuilds from the
line list). -/
def renderErr : EdError → Text
  | .missingParam c p =>
    str "Parameter `" ++ p.data ++ str "` is required for command: " ++ c.data ++ str "."
  | .invalidParam p hint =>
    str "Invalid `" ++ p.data ++ str "` parameter. " ++ hint.data
  | .toolError m => m
  | .ambiguousOccurrences old lines =>
    str "No replacement was performed. Multiple occurrences of old_str `" ++ old ++
      str "` in lines " ++ (toString lines).data ++ str ". Please ensure it is unique."
  | .attributeErr a =>
    str "AttributeError: FileHistoryManager object has no attribute " ++ a.data

/-- `CLIResult` (`results.py` is absent from the source tree; the shape is
the one `editor.py` / `gemini_editor.py` construct: output text, optional
structured error, prior existence, old/new content). -/
structure CLIResult where
  output : Text := []
  error : Option Text := none
  prevExist : Bool := true
  oldContent : Option Text := none
  newContent : Option Text := none
  deriving DecidableEq, Repr

/-- The per-path slice of the filesystem and history the editor touches. -/
structure EditorState where
  file : Option Text
  hist : HistState
  deriving DecidableEq, Repr

/-- The outcome of one editor call: a returned result or a raised error. -/
inductive StepOut where
  | ok (r : CLIResult)
  | err (e : EdError)
  deriving DecidableEq, Repr

/-- Whether the call returned normally. -/
def StepOut.isOk : StepOut → Bool
  | .ok _ => true
  | .err _ => false

/-- Outcome plus the state after the call. -/
abbrev StepResult := StepOut × EditorState

/-- The most recent stored snapshot of the history, without removing it. -/
def latestSnapshot (h : HistState) : Option Text :=
  match h.entries.getLast? with
  | none => none
  | some k => snapGet h.snaps k

/-- Outcome of the patch engine on a document. -/
inductive PatchOutcome where
  | notFound
  | multiple (lines : List Nat)
  | replaced (newDoc : Text) (startLine0 : Nat)
  deriving DecidableEq, Repr

/-- Modelled from the spec: `replace_in_file` from the `file_ops` module,
which `editor.py` imports but which is absent from the source tree.  Per
spec §4.2 (PatchEngine): tabs are expanded on the document before comparison
and insertion (the editor has already expanded `old` and `new`); zero
occurrences of `old` → not found; more than one → ambiguity listing every
1-based line number where an occurrence starts; exactly one → the occurrence
is replaced in the file in place and the 0-based start line is returned for
snippet windowing. -/
def replaceInFile (doc old new : Text) : PatchOutcome :=
  let docE := expandTabs doc
  match occStarts old docE with
  | [] => .notFound
  | [i] => .replaced (docE.take i ++ new ++ docE.drop (i + old.length)) (lineNumberAt docE i - 1)
  | i :: j :: rest => .multiple ((i :: j :: rest).map (lineNumberAt docE))

/-- The not-found message `str_replace` raises, naming the searched text. -/
def notFoundMsg (old : Text) : Text :=
  str "No replacement was performed, old_str `" ++ old ++
    str "` did not appear verbatim in the file."

/-- Body of `OHEditor.str_replace` once dispatch checks passed: expand tabs
on the arguments (a missing `new_str` becomes the empty string), run the
patch engine, then store a history snapshot.  `replace_in_file` has already
rewritten the file when `self.read_file(path)` is called for the snapshot,
so the recorded `file_content` is the post-edit text — modelled faithfully. -/
def strReplaceCore (st : EditorState) (doc : Text) (oldRaw : Text) (newRaw : Option Text) :
    StepResult :=
  let old := expandTabs oldRaw
  let new := match newRaw with
    | some s => expandTabs s
    | none => []
  match replaceInFile doc old new with
  | .notFound => (.err (.toolError (notFoundMsg old)), st)
  | .multiple lines => (.err (.ambiguousOccurrences old lines), st)
  | .replaced newDoc _ =>
    let fileContent := newDoc
    (.ok { output := str "The file has been edited.", prevExist := true,
           oldContent := some fileContent, newContent := some newDoc },
     ⟨some newDoc, addHistory maxHistoryPerFile st.hist fileContent⟩)

/-- `OHEditor.__call__` dispatch for `str_replace`: path must exist
(`validate_path`), `old_str` is required, `new_str == old_str` is rejected
(`new_str` may be `None`, which is distinct from any string). -/
def ohStrReplace (st : EditorState) (oldStr? newStr? : Option Text) : StepResult :=
  match st.file with
  | none => (.err (.invalidParam "path" "The path does not exist. Please provide a valid path."), st)
  | some doc =>
    match oldStr? with
    | none => (.err (.missingParam "str_replace" "old_str"), st)
    | some old =>
      if newStr? = some old then
        (.err (.invalidParam "new_str"
          "No replacement was performed. `new_str` and `old_str` must be different."), st)
      else
        strReplaceCore st doc old newStr?

/-- `OHEditor.__call__` dispatch for `create`: the path must not exist,
`file_text` is required; the text is written verbatim and — as the code
does — stored as the history snapshot. -/
def ohCreate (st : EditorState) (fileText? : Option Text) : StepResult :=
  match st.file with
  | some _ =>
    (.err (.invalidParam "path" "File already exists. Cannot overwrite files using command `create`."), st)
  | none =>
    match fileText? with
    | none => (.err (.missingParam "create" "file_text"), st)
    | some t =>
      (.ok { output := str "File created successfully", prevExist := false,
             newContent := some t },
       ⟨some t, addHistory maxHistoryPerFile st.hist t⟩)

/-- Python `new_str.split('\n')`. -/
def splitOnNl : Text → List Text
  | [] => [[]]
  | '\n' :: rest => [] :: splitOnNl rest
  | c :: rest =>
    match splitOnNl rest with
    | [] => [[c]]
    | seg :: segs => (c :: seg) :: segs

/-- `OHEditor.insert`: validates `0 ≤ insert_line ≤ num_lines`, then writes
prefix lines (tab-expanded), the tab-expanded `new_str` split on newlines
(each line getting a trailing newline), and suffix lines (tab-expanded); the
pre-edit content is stored as the history snapshot. -/
def ohInsert (st : EditorState) (insertLine? : Option Int) (newStr? : Option Text) :
    StepResult :=
  match st.file with
  | none => (.err (.invalidParam "path" "The path does not exist. Please provide a valid path."), st)
  | some doc =>
    match insertLine? with
    | none => (.err (.missingParam "insert" "insert_line"), st)
    | some insertLine =>
      match newStr? with
      | none => (.err (.missingParam "insert" "new_str"), st)
      | some ns =>
        let n := numLines doc
        if insertLine < 0 ∨ insertLine > (n : Int) then
          (.err (.invalidParam "insert_line"
            "It should be within the range of lines of the file."), st)
        else
          let i := insertLine.toNat
          let lines := splitKeepEnds doc
          let nsLines := splitOnNl (expandTabs ns)
          let newDoc :=
            ((lines.take i).map expandTabs).flatten ++
              (nsLines.map (fun l => l ++ ['\n'])).flatten ++
              ((lines.drop i).map expandTabs).flatten
          (.ok { output := str "The file has been edited.", prevExist := true,
                 oldContent := some doc, newContent := some newDoc },
           ⟨some newDoc, addHistory maxHistoryPerFile st.hist doc⟩)

/-- The public (non-underscore) methods `history.py` defines on
`FileHistoryManager`. -/
def historyManagerMethods : List String :=
  ["add_history", "pop_last_history", "get_metadata", "clear_history", "get_all_history"]

/-- `OHEditor.undo_edit`: after `validate_path` the code evaluates
`self._history_manager.get_last_history(path)`.  `FileHistoryManager`
defines no attribute of that name (see `historyManagerMethods`), so the
lookup raises `AttributeError` before the file or the history is touched —
modelled faithfully. -/
def ohUndo (st : EditorState) : StepResult :=
  match st.file with
  | none => (.err (.invalidParam "path" "The path does not exist. Please provide a valid path."), st)
  | some _ => (.err (.attributeErr "get_last_history"), st)

/-! ## `OHDiffEditor` fenced SEARCH/REPLACE (`diff_editor.py`) -/

/-- `lines and lines[-1].endswith('\n')`. -/
def lastEndsNl (ls : List Text) : Bool :=
  match ls.getLast? with
  | some l => l.getLast? = some '\n'
  | none => false

/-- The trailing-newline fixup both fenced strategies share: the result gets
a final newline if the search block, the replacement block or the original
document ended with one. -/
def fencedJoinFix (part repl whole : List Text) (res : Text) : Text :=
  if (lastEndsNl part || lastEndsNl repl || lastEndsNl whole) &&
      !(res.getLast? = some '\n' : Bool) then
    res ++ ['\n']
  else
    res

/-- The window scan of `_fenced_exact_replace`: first index where the
search-block lines occur contiguously. -/
def findExactIdxGo (part : List Text) : List Text → Nat → Option Nat
  | [], i => if part.isPrefixOf ([] : List Text) then some i else none
  | l@(_ :: rest), i =>
    if part.isPrefixOf l then some i else findExactIdxGo part rest (i + 1)

/-- `OHDiffEditor._fenced_exact_replace`. -/
def fencedExactReplace (whole part repl : List Text) : Option Text :=
  if part = [] then none
  else
    match findExactIdxGo part whole 0 with
    | none => none
    | some i =>
      some (fencedJoinFix part repl whole
        ((whole.take i ++ repl ++ whole.drop (i + part.length)).flatten))

/-- The first loop of `_fenced_match_but_for_leading_whitespace`: for each
line pair with content, require the search line's leading whitespace to be
a prefix of the document line's and collect the left-over offset. -/
def collectDiffs : List (Text × Text) → Option (List Text)
  | [] => some []
  | (w, p) :: rest =>
    if isBlank w then collectDiffs rest
    else
      let wl := leadWs w
      let pl := leadWs p
      if pl.isPrefixOf wl then
        match collectDiffs rest with
        | none => none
        | some ds => some (wl.drop pl.length :: ds)
      else
        none

/-- `OHDiffEditor._fenced_match_but_for_leading_whitespace`: equal line
counts, equal content after `lstrip`, and one consistent leading-whitespace
offset (returned); with no content line at all, the code re-checks that no
search line claims more indentation and returns the empty offset. -/
def matchButForLeadingWs (whole part : List Text) : Option Text :=
  if whole.length ≠ part.length then none
  else if !((whole.zip part).all (fun wp => lstripText wp.1 == lstripText wp.2)) then none
  else
    match collectDiffs (whole.zip part) with
    | none => none
    | some ds =>
      let dd := ds.dedup
      if dd.length > 1 then none
      else
        match dd with
        | [d] => some d
        | _ =>
          if (whole.zip part).any
              (fun wp => !(isBlank wp.1) && decide ((leadWs wp.2).length > (leadWs wp.1).length)) then
            none
          else
            some []

/-- The window scan of `_fenced_whitespace_flexible_replace`: first index
whose window matches up to a consistent leading-whitespace offset, plus that
offset. -/
def findFlexIdxGo (part : List Text) : List Text → Nat → Option (Nat × Text)
  | [], i =>
    match matchButForLeadingWs ([] : List Text) part with
    | some ws => some (i, ws)
    | none => none
  | l@(_ :: rest), i =>
    match matchButForLeadingWs (l.take part.length) part with
    | some ws => some (i, ws)
    | none => findFlexIdxGo part rest (i + 1)

/-- `OHDiffEditor._fenced_whitespace_flexible_replace`: on a match, the
detected offset is prepended to every replacement line with content. -/
def fencedFlexReplace (whole part repl : List Text) : Option Text :=
  if part = [] then none
  else
    match findFlexIdxGo part whole 0 with
    | none => none
    | some (i, ws) =>
      let adjusted := repl.map (fun r => if !(isBlank r) then ws ++ r else r)
      some (fencedJoinFix part repl whole
        ((whole.take i ++ adjusted ++ whole.drop (i + part.length)).flatten))

/-- The strategy ladder of `fenced_replace`: exact match first, the
whitespace-flexible match only if that failed.  (Strategy 3, the similarity
diagnostic, never produces a result — it only decorates the error text.) -/
def fencedTryStrategies (whole part repl : List Text) : Option Text :=
  match fencedExactReplace whole part repl with
  | some r => some r
  | none => fencedFlexReplace whole part repl

/-- `OHDiffEditor.fenced_replace` on the per-path state, faithful to the
frozen source.  The method first runs `self.validate_path('view', path)`
(diff_editor.py line 201); since the command is not `create`, `validate_path`
(editor.py lines 380-385) raises `EditorToolParameterInvalidError` for every
missing path, which makes the create-on-missing branch at lines 202-212 dead
code.  For an existing path the method then evaluates
`self.validate_file(path)` (line 220): `OHEditor` in the source tree defines
no such attribute, so the lookup raises `AttributeError` before any read,
match, history push or write.  Hence every call fails with the per-path
state untouched; the blank-search append and the strategy ladder
(lines 222-307) are unreachable in this source. -/
def fencedReplaceOp (st : EditorState) (_search _replaceT : Text) : StepResult :=
  match st.file with
  | none =>
    (.err (.invalidParam "path" "The path does not exist. Please provide a valid path."), st)
  | some _ =>
    (.err (.attributeErr "validate_file"), st)

/-! ## `GeminiEditor` (`gemini_editor.py`) -/

/-- `raw.replace('\r\n', '\n').replace('\r', '\n')`. -/
def normalizeEol (s : Text) : Text :=
  replaceAll ['\r'] ['\n'] (replaceAll ['\r', '\n'] ['\n'] s)

/-- The count-mismatch message of `GeminiEditor._replace`. -/
def mismatchMsg (expected found : Nat) : Text :=
  str "Expected " ++ (toString expected).data ++ str " occurrences but found " ++
    (toString found).data

/-- `GeminiEditor._replace`: reject `old == new`; on a missing path create
the file when `old` is empty (pushing an empty-string baseline snapshot) and
fail otherwise; on an existing file match against the EOL-normalized text,
require the occurrence count to equal `expected_replacements` (default 1,
zero always fails), replace, and restore the detected EOL style (CRLF when
the raw bytes contain one, lone CR when they contain CR but no LF).  The
`EncodingManager` collaborator is absent from the source tree and modelled
from spec §6 as the identity decode on already-decoded text. -/
def gemReplaceInner (st : EditorState) (old new : Text) (expected? : Option Nat) :
    StepResult :=
  if new = old then
    (.err (.invalidParam "new_string" "new_string must be different from old_string"), st)
  else
    match st.file with
    | none =>
      if old = [] then
        (.ok { output := str "File created successfully", prevExist := false,
               oldContent := some [], newContent := some new },
         ⟨some new, addHistory maxHistoryPerFile st.hist []⟩)
      else
        (.err (.toolError (str "The file does not exist")), st)
    | some raw =>
      let normalized := normalizeEol raw
      if old = [] then
        (.err (.invalidParam "old_string" "old_string cannot be empty when the file already exists."), st)
      else
        let count := countOcc old normalized
        let expected := expected?.getD 1
        if count = 0 then
          (.err (.toolError (str "0 occurrences found")), st)
        else if count ≠ expected then
          (.err (.toolError (mismatchMsg expected count)), st)
        else
          let replaced := replaceAll old new normalized
          let newText :=
            if containsSub (str "\r\n") raw then
              replaceAll ['\n'] (str "\r\n") replaced
            else if containsSub ['\r'] raw ∧ ¬ (containsSub ['\n'] raw = true) then
              replaceAll ['\n'] ['\r'] replaced
            else
              replaced
          (.ok { output := str "Replaced occurrences", prevExist := true,
                 oldContent := some raw, newContent := some newText },
           ⟨some newText, addHistory maxHistoryPerFile st.hist raw⟩)

/-- The parameter handling of `GeminiEditor.__call__` before `_replace`:
`new_string` is required, a missing `old_string` becomes the empty string. -/
def gemDispatch (st : EditorState) (oldStr? newStr? : Option Text) (expected? : Option Nat) :
    StepResult :=
  match newStr? with
  | none => (.err (.missingParam "replace" "new_string"), st)
  | some new => gemReplaceInner st (oldStr?.getD []) new expected?

/-- `GeminiEditor.__call__`: every `ToolError` raised inside is caught and
returned as the structured `error` field of the `CLIResult`, never thrown to
the caller. -/
def gemCall (st : EditorState) (oldStr? newStr? : Option Text) (expected? : Option Nat) :
    CLIResult × EditorState :=
  match gemDispatch st oldStr? newStr? expected? with
  | (.ok r, st') => (r, st')
  | (.err e, st') => ({ error := some (renderErr e) }, st')

/-! ## Uniform mutating-command step (for the no-side-effects-on-failure
property) -/

/-- The mutating commands of the engine (all flavors). -/
inductive MutCmd where
  | create (fileText : Option Text)
  | strReplace (oldStr newStr : Option Text)
  | insert (insertLine : Option Int) (newStr : Option Text)
  | undoEdit
  | fenced (search replaceT : Text)
  | gemReplace (oldStr newStr : Option Text) (expected : Option Nat)
  deriving DecidableEq, Repr

/-- Run one mutating command against the per-path state. -/
def runMut (st : EditorState) : MutCmd → StepResult
  | .create t => ohCreate st t
  | .strReplace o n => ohStrReplace st o n
  | .insert i n => ohInsert st i n
  | .undoEdit => ohUndo st
  | .fenced s r => fencedReplaceOp st s r
  | .gemReplace o n e => gemDispatch st o n e

/-! ## Statement-level helper definitions -/

/-- Scan for a `'\n'` not immediately preceded by `'\r'`, carrying the
previous character. -/
def noLoneLFGo (prev : Char) : Text → Bool
  | [] => true
  | c :: rest => (c != '\n' || prev == '\r') && noLoneLFGo c rest

/-- Every `'\n'` of the text is immediately preceded by `'\r'` — the text
"retains CRLF throughout". -/
def noLoneLF : Text → Bool
  | [] => true
  | c :: rest => (c != '\n') && noLoneLFGo c rest

/-- The history state after a sequence of `add_history` calls on a fresh
manager with cap `maxH`. -/
def historyAfter (maxH : Nat) (cs : List Text) : HistState :=
  addAllHistory maxH histInit cs

/-- The keys of the stored cache records are pairwise distinct (true of
every reachable `FileCache` state: one physical record per key). -/
def nodupKeys (recs : List CacheRec) : Prop :=
  (recs.map CacheRec.key).Nodup

/-- Invariant of a history state after the contents `cs` have been added in
order to a fresh manager with cap `K`: the counter equals the number of
adds, the live list holds the `min K |cs|` most recent sequence numbers in
ascending order, and each live number still stores its add's content. -/
def HistGood (K : Nat) (cs : List Text) (h : HistState) : Prop :=
  h.counter = cs.length ∧
  h.entries = List.range' (cs.length - min K cs.length) (min K cs.length) ∧
  h.snaps = (List.range' (cs.length - min K cs.length) (min K cs.length)).map
    (fun i => (i, cs.getD i []))

/-! ## Claim theorems -/

/-- C1.  The claim says `undo_edit` pops the most recent snapshot and
restores it, failing with a no-history `ToolError` only when no snapshot
exists.  The code instead calls `self._history_manager.get_last_history`,
an attribute `FileHistoryManager` does not define, so every `undo_edit` on
an existing path — here one whose history is non-empty — raises
`AttributeError` and changes nothing; `pop_last_history`, the method
`history.py` does define, would have returned the stored snapshot. -/
theorem undo_edit_calls_missing_method :
    (runMut ⟨some (str "current"), addHistory maxHistoryPerFile histInit (str "older")⟩
        .undoEdit).1 = .err (.attributeErr "get_last_history") ∧
    (runMut ⟨some (str "current"), addHistory maxHistoryPerFile histInit (str "older")⟩
        .undoEdit).2 =
      ⟨some (str "current"), addHistory maxHistoryPerFile histInit (str "older")⟩ ∧
    (addHistory maxHistoryPerFile histInit (str "older")).entries ≠ [] ∧
    ¬ ("get_last_history" ∈ historyManagerMethods) ∧
    (popLastHistory (addHistory maxHistoryPerFile histInit (str "older"))).1 =
      some (str "older") := by
  decide

/-- C2.  The claim says every snapshot records the pre-edit content and that
`create` stores an empty-string baseline.  In the code, `str_replace` reads
the file only after `replace_in_file` has rewritten it, so the snapshot it
stores is the post-edit content (`"cb"`, not the pre-edit `"ab"`); and
`create` stores the created text itself (`"T"`), not an empty string. -/
theorem snapshot_content_bug :
    (runMut ⟨some (str "ab"), histInit⟩ (.strReplace (some (str "a")) (some (str "c")))).2.file =
      some (str "cb") ∧
    latestSnapshot
        (runMut ⟨some (str "ab"), histInit⟩
          (.strReplace (some (str "a")) (some (str "c")))).2.hist = some (str "cb") ∧
    some (str "ab") ≠ some (str "cb") ∧
    latestSnapshot (runMut ⟨none, histInit⟩ (.create (some (str "T")))).2.hist =
      some (str "T") ∧
    some (str "T") ≠ some (str "") := by
  decide

/-- C4 (counterexample).  The claim says that after every `set` the running
total is at most the limit unless a sole record remains.  With limit 100,
writing two fresh records of size 60 each leaves two records totalling 120:
the eviction loop refuses to evict the single pre-existing record
(`len(self) > 1` fails) and then writes the new one beside it. -/
theorem file_cache_cap_counterexample :
    totalSize (cacheRun (some 100) cacheInit [.set "a" 60, .set "b" 60]).recs = 120 ∧
    (cacheRun (some 100) cacheInit [.set "a" 60, .set "b" 60]).recs.length = 2 ∧
    ¬ (totalSize (cacheRun (some 100) cacheInit [.set "a" 60, .set "b" 60]).recs ≤ 100) := by
  decide

/-- C7 (counterexample).  The claim says every document that is a uniform
re-indentation of the search block by a constant leading-whitespace string
matches via the whitespace-flexible strategy.  Prepending one tab to the
space-indented line `"  x\n"` is such a re-indentation, yet the matcher
rejects it: the search line's leading whitespace `"  "` is not a prefix of
the document line's `"\t  "`, so neither strategy matches. -/
theorem fenced_reindent_counterexample :
    [str "\t  x\n"] = [str "  x\n"].map (fun l => str "\t" ++ l) ∧
    fencedFlexReplace [str "\t  x\n"] [str "  x\n"] [str "y\n"] = none ∧
    fencedTryStrategies [str "\t  x\n"] [str "  x\n"] [str "y\n"] = none := by
  decide

/-- C6.  Every mutating command of every flavor that fails — parameter
validation, not-found, ambiguity, or any other raised error — returns the
per-path state (file content and history) unchanged: side effects happen
only after full validation succeeds.  (In this source, `fenced_replace`
itself always fails before mutating: on a missing path the `validate_path`
check, on an existing path the `AttributeError` from the undefined
`validate_file`; both are covered.) -/
theorem failed_mutating_command_preserves_state
    (st : EditorState) (c : MutCmd) (e : EdError)
    (h : (runMut st c).1 = .err e) : (runMut st c).2 = st := by
  cases c <;>
    simp only [runMut, ohCreate, ohStrReplace, ohInsert, ohUndo, fencedReplaceOp,
      gemDispatch, gemReplaceInner, strReplaceCore] at h ⊢ <;>
    (repeat' first
      | rfl
      | (split at h <;> try simp_all))

/-- C6 witness: a not-found `str_replace` on a concrete file leaves the
state untouched. -/
theorem failed_mutating_command_preserves_state_witness :
    (runMut ⟨some (str "abc"), histInit⟩
        (.strReplace (some (str "zz")) (some (str "y")))).2 =
      ⟨some (str "abc"), histInit⟩ :=
  failed_mutating_command_preserves_state ⟨some (str "abc"), histInit⟩
    (.strReplace (some (str "zz")) (some (str "y")))
    (.toolError (notFoundMsg (str "zz"))) (by decide)

/-- C5.  On an existing file with `old ≠ new`, `str_replace` succeeds iff
the (tab-expanded) old string occurs exactly once in the tab-expanded file
content; zero occurrences raise a not-found `ToolError` whose message
includes the searched text, and `k > 1` occurrences raise an ambiguity
error carrying the 1-based line numbers where each of the `k` occurrences
starts (one entry per occurrence). -/
theorem str_replace_uniqueness (st : EditorState) (doc old : Text) (new? : Option Text)
    (hf : st.file = some doc) (hne : new? ≠ some old) :
    ((ohStrReplace st (some old) new?).1.isOk = true ↔
        countOcc (expandTabs old) (expandTabs doc) = 1) ∧
    (countOcc (expandTabs old) (expandTabs doc) = 0 →
      (ohStrReplace st (some old) new?).1 =
        .err (.toolError (notFoundMsg (expandTabs old))) ∧
      ∃ pre post, notFoundMsg (expandTabs old) = pre ++ expandTabs old ++ post) ∧
    (1 < countOcc (expandTabs old) (expandTabs doc) →
      (ohStrReplace st (some old) new?).1 =
        .err (.ambiguousOccurrences (expandTabs old)
          ((occStarts (expandTabs old) (expandTabs doc)).map
            (lineNumberAt (expandTabs doc)))) ∧
      ((occStarts (expandTabs old) (expandTabs doc)).map
          (lineNumberAt (expandTabs doc))).length =
        countOcc (expandTabs old) (expandTabs doc)) := by
  obtain ⟨file, hist⟩ := st
  obtain rfl : file = some doc := hf
  simp only [ohStrReplace, if_neg hne, strReplaceCore, replaceInFile]
  rcases hocc : occStarts (expandTabs old) (expandTabs doc) with _ | ⟨i, _ | ⟨j, rest⟩⟩ <;>
    simp only [countOcc, hocc, List.length_nil, List.length_cons, List.length_map,
      StepOut.isOk]
  · refine ⟨by simp, fun _ => ⟨by simp, ?_⟩, by omega⟩
    exact ⟨str "No replacement was performed, old_str `",
      str "` did not appear verbatim in the file.", rfl⟩
  · simp
  · refine ⟨by simp, by omega, fun _ => ⟨by simp, by simp⟩⟩

/-- C5 witness (spec scenario B): the file `"a\na\na\n"` with `old = "a"` has
three occurrences, and the ambiguity error lists lines 1, 2 and 3. -/
theorem str_replace_uniqueness_witness :
    (ohStrReplace ⟨some (str "a\na\na\n"), histInit⟩ (some (str "a")) (some (str "b"))).1 =
      .err (.ambiguousOccurrences (str "a") [1, 2, 3]) := by
  have h := (str_replace_uniqueness ⟨some (str "a\na\na\n"), histInit⟩ (str "a\na\na\n")
    (str "a") (some (str "b")) rfl (by decide)).2.2 (by decide)
  exact h.1.trans (by decide)

/-! ### History-manager lemmas (C3) -/

theorem range'_snoc (s n : Nat) : List.range' s (n + 1) = List.range' s n ++ [s + n] := by
  have h : List.range' s (n + 1) 1 = List.range' s n 1 ++ [s + 1 * n] :=
    List.range'_concat s n
  simpa using h

theorem snapSet_append (snaps : List (Nat × Text)) (k : Nat) (v : Text)
    (h : ∀ p ∈ snaps, p.1 ≠ k) : snapSet snaps k v = snaps ++ [(k, v)] := by
  unfold snapSet
  rw [if_neg]
  simp only [List.any_eq_true, decide_eq_true_eq, not_exists, not_and]
  exact h

theorem snapDelete_map (R : List Nat) (a : Nat) (g : Nat → Text) :
    snapDelete (R.map (fun i => (i, g i))) a =
      (R.filter (fun i => i ≠ a)).map (fun i => (i, g i)) := by
  induction R with
  | nil => rfl
  | cons b R ih =>
    by_cases hb : b = a <;> simp [snapDelete, hb, List.filter] at ih ⊢ <;> exact ih

theorem evictHistory_of_le (maxH : Nat) (entries : List Nat) (snaps : List (Nat × Text))
    (h : entries.length ≤ maxH) : evictHistory maxH entries snaps = (entries, snaps) := by
  cases entries with
  | nil => rfl
  | cons e rest =>
    unfold evictHistory
    rw [if_neg (by omega)]

theorem addHistory_good (K : Nat) (cs : List Text) (c : Text) (h : HistState)
    (hg : HistGood K cs h) : HistGood K (cs ++ [c]) (addHistory K h c) := by
  obtain ⟨hc, he, hs⟩ := hg
  have hmn : min K cs.length ≤ cs.length := Nat.min_le_right K cs.length
  have hmK : min K cs.length ≤ K := Nat.min_le_left K cs.length
  have hkeys : ∀ p ∈ h.snaps, p.1 ≠ h.counter := by
    intro p hp
    rw [hs] at hp
    obtain ⟨i, hi, rfl⟩ := List.mem_map.mp hp
    have hmem := List.mem_range'_1.mp hi
    simp only [hc]
    omega
  have hgn : ∀ R : List Nat, (∀ i ∈ R, i < cs.length) →
      R.map (fun i => (i, cs.getD i [])) =
        R.map (fun i => (i, (cs ++ [c]).getD i [])) := by
    intro R hR
    refine List.map_congr_left (fun i hi => ?_)
    rw [List.getD_append _ _ _ _ (hR i hi)]
  have hlast : (cs ++ [c]).getD cs.length [] = c := by
    rw [List.getD_append_right _ _ _ _ (Nat.le_refl _)]
    simp
  unfold addHistory
  rw [snapSet_append _ _ _ hkeys, hc, he, hs]
  have hent : List.range' (cs.length - min K cs.length) (min K cs.length) ++ [cs.length] =
      List.range' (cs.length - min K cs.length) (min K cs.length + 1) := by
    rw [range'_snoc]
    congr 2
    omega
  have hsnap :
      (List.range' (cs.length - min K cs.length) (min K cs.length)).map
          (fun i => (i, cs.getD i [])) ++ [(cs.length, c)] =
        (List.range' (cs.length - min K cs.length) (min K cs.length + 1)).map
          (fun i => (i, (cs ++ [c]).getD i [])) := by
    rw [range'_snoc, List.map_append]
    congr 1
    · rw [hgn]
      intro i hi
      have := List.mem_range'_1.mp hi
      omega
    · simp only [List.map_cons, List.map_nil]
      congr 2
      · omega
      · rw [show cs.length - min K cs.length + min K cs.length = cs.length by omega, hlast]
  rw [hent, hsnap]
  have hL : (cs ++ [c]).length = cs.length + 1 := by simp
  by_cases hK : min K cs.length + 1 ≤ K
  · rw [evictHistory_of_le _ _ _ (by simp [List.length_range']; omega)]
    have h1 : min K ((cs ++ [c]).length) = min K cs.length + 1 := by rw [hL]; omega
    have h2 : (cs ++ [c]).length - (min K cs.length + 1) =
        cs.length - min K cs.length := by rw [hL]; omega
    exact ⟨by simp [hL], by rw [h1, h2], by rw [h1, h2]⟩
  · have hm : min K cs.length = K ∧ K ≤ cs.length := by omega
    have hsplit : List.range' (cs.length - K) (K + 1) =
        (cs.length - K) :: List.range' (cs.length - K + 1) K := List.range'_succ _ _ 1
    rw [hm.1, hsplit]
    unfold evictHistory
    rw [if_pos (by simp [List.length_range'])]
    rw [snapDelete_map]
    have hfilt : (List.range' (cs.length - K + 1) K).filter (fun i => i ≠ cs.length - K) =
        List.range' (cs.length - K + 1) K := by
      refine List.filter_eq_self.mpr (fun a ha => ?_)
      have := List.mem_range'_1.mp ha
      simp only [decide_eq_true_eq]
      omega
    rw [show ((cs.length - K) :: List.range' (cs.length - K + 1) K).filter
          (fun i => i ≠ cs.length - K) =
        (List.range' (cs.length - K + 1) K).filter (fun i => i ≠ cs.length - K) by
      simp [List.filter]]
    rw [hfilt, evictHistory_of_le _ _ _ (by simp [List.length_range'])]
    have h1 : min K ((cs ++ [c]).length) = K := by rw [hL]; omega
    have h2 : (cs ++ [c]).length - K = cs.length - K + 1 := by rw [hL]; omega
    exact ⟨by simp [hL], by rw [h1, h2], by rw [h1, h2]⟩

theorem addAll_good (K : Nat) (cs : List Text) :
    ∀ (cs₀ : List Text) (h : HistState), HistGood K cs₀ h →
      HistGood K (cs₀ ++ cs) (addAllHistory K h cs) := by
  induction cs with
  | nil => intro cs₀ h hg; simpa [addAllHistory] using hg
  | cons c cs ih =>
    intro cs₀ h hg
    have h1 := addHistory_good K cs₀ c h hg
    have h2 := ih (cs₀ ++ [c]) _ h1
    simpa [addAllHistory, List.append_assoc] using h2

theorem histGood_init (K : Nat) : HistGood K [] histInit := by
  refine ⟨rfl, ?_, ?_⟩ <;> simp [histInit]

/-- C3.  After any sequence of `add_history` calls: the live list holds at
most `maxHistoryPerFile` entries, the counter equals the number of adds (it
strictly increases and is never reused), the live list is exactly the
ascending range of the most recent `min K M` sequence numbers (so eviction
removed precisely the lowest ones, FIFO, together with their snapshots: the
stored snapshots are exactly those of the live entries, each holding the
content passed to its add), and after `M > K` adds exactly `K` entries
remain, the `K` most recent. -/
theorem history_bounded_fifo (K : Nat) (cs : List Text) :
    (historyAfter K cs).counter = cs.length ∧
    (historyAfter K cs).entries =
      List.range' (cs.length - min K cs.length) (min K cs.length) ∧
    (historyAfter K cs).entries.length ≤ K ∧
    (historyAfter K cs).snaps =
      (historyAfter K cs).entries.map (fun i => (i, cs.getD i [])) ∧
    (K < cs.length → (historyAfter K cs).entries.length = K) := by
  have hg := addAll_good K cs [] histInit (histGood_init K)
  simp only [List.nil_append] at hg
  obtain ⟨hc, he, hs⟩ := hg
  unfold historyAfter
  refine ⟨hc, he, ?_, ?_, ?_⟩
  · rw [he]; simp [List.length_range']
  · rw [hs, he]
  · intro hM
    rw [he]
    simp only [List.length_range']
    omega

/-- C3 witness: three adds with cap 2 keep exactly the two most recent
snapshots, sequence numbers 1 and 2. -/
theorem history_bounded_fifo_witness :
    2 < 3 ∧ (historyAfter 2 [str "x", str "y", str "z"]).entries.length = 2 :=
  ⟨by omega,
    (history_bounded_fifo 2 [str "x", str "y", str "z"]).2.2.2.2 (by decide)⟩

/-! ### Optional new_str (C10) -/

/-- C10.  `new_str` is not required for `str_replace`: when the target file
exists and the (tab-expanded) old string occurs exactly once, calling with
`new_str` omitted (`None`) succeeds — no missing-parameter error — and
behaves as replacement with the empty string, deleting the unique
occurrence from the tab-expanded content. -/
theorem str_replace_optional_new_str (st : EditorState) (doc old : Text)
    (hf : st.file = some doc)
    (h1 : countOcc (expandTabs old) (expandTabs doc) = 1) :
    ∃ i, occStarts (expandTabs old) (expandTabs doc) = [i] ∧
      (ohStrReplace st (some old) none).1.isOk = true ∧
      (ohStrReplace st (some old) none).2.file =
        some ((expandTabs doc).take i ++ (expandTabs doc).drop (i + (expandTabs old).length)) ∧
      (old ≠ [] → ohStrReplace st (some old) none = ohStrReplace st (some old) (some [])) := by
  obtain ⟨file, hist⟩ := st
  obtain rfl : file = some doc := hf
  rcases hocc : occStarts (expandTabs old) (expandTabs doc) with _ | ⟨i, _ | ⟨j, rest⟩⟩ <;>
    simp only [countOcc, hocc, List.length_nil, List.length_cons] at h1
  · omega
  · refine ⟨i, rfl, ?_, ?_, ?_⟩
    · simp [ohStrReplace, strReplaceCore, replaceInFile, hocc, StepOut.isOk]
    · simp [ohStrReplace, strReplaceCore, replaceInFile, hocc]
    · intro hne
      have hsome : (some [] : Option Text) ≠ some old := by
        simp only [ne_eq, Option.some.injEq]
        exact fun h => hne h.symm
      simp [ohStrReplace, strReplaceCore, replaceInFile, hocc, hsome, expandTabs,
        expandTabsAux]
  · omega

/-- C10 witness: deleting the unique occurrence of `"world"` from
`"hello world"` with `new_str` omitted. -/
theorem str_replace_optional_new_str_witness :
    (ohStrReplace ⟨some (str "hello world"), histInit⟩ (some (str "world")) none).1.isOk =
      true := by
  obtain ⟨i, -, hok, -, -⟩ :=
    str_replace_optional_new_str ⟨some (str "hello world"), histInit⟩ (str "hello world")
      (str "world") rfl (by decide)
  exact hok

/-! ### Gemini replace (C8, C9) -/

/-- C8.  The alternate-flavor `replace`: empty `old` with a missing file
creates the file; empty `old` with an existing file fails; the required
count defaults to 1 (`expected_replacements` omitted behaves exactly like an
explicit 1); an explicit expected count that differs from the actual count
fails (too few and too many alike, zero occurrences always); `old == new`
always fails; and each of these failures is returned in the structured
`error` field of the result — the total `gemCall` never throws — with the
state unchanged. -/
theorem gemini_replace_contract :
    (∀ (st : EditorState) (new : Text) (exp : Option Nat),
      st.file = none → new ≠ [] →
        (gemCall st (some []) (some new) exp).1.error = none ∧
        (gemCall st (some []) (some new) exp).2.file = some new) ∧
    (∀ (st : EditorState) (raw new : Text) (exp : Option Nat),
      st.file = some raw →
        ((gemCall st (some []) (some new) exp).1.error).isSome = true ∧
        (gemCall st (some []) (some new) exp).2 = st) ∧
    (∀ (st : EditorState) (o n : Option Text),
      gemCall st o n none = gemCall st o n (some 1)) ∧
    (∀ (st : EditorState) (raw old new : Text) (exp : Option Nat),
      st.file = some raw → old ≠ [] →
        countOcc old (normalizeEol raw) ≠ exp.getD 1 →
          ((gemCall st (some old) (some new) exp).1.error).isSome = true ∧
          (gemCall st (some old) (some new) exp).2 = st) ∧
    (∀ (st : EditorState) (old : Text) (exp : Option Nat),
      ((gemCall st (some old) (some old) exp).1.error).isSome = true ∧
      (gemCall st (some old) (some old) exp).2 = st) := by
  refine ⟨?_, ?_, ?_, ?_, ?_⟩
  · intro st new exp hf hne
    obtain ⟨file, hist⟩ := st
    obtain rfl : file = none := hf
    simp [gemCall, gemDispatch, gemReplaceInner, hne]
  · intro st raw new exp hf
    obtain ⟨file, hist⟩ := st
    obtain rfl : file = some raw := hf
    by_cases hne : new = []
    · subst hne; simp [gemCall, gemDispatch, gemReplaceInner]
    · simp [gemCall, gemDispatch, gemReplaceInner, hne]
  · intro st o n
    cases n <;> rfl
  · intro st raw old new exp hf hold hcnt
    obtain ⟨file, hist⟩ := st
    obtain rfl : file = some raw := hf
    by_cases hne : new = old
    · subst hne; simp [gemCall, gemDispatch, gemReplaceInner]
    · by_cases hz : countOcc old (normalizeEol raw) = 0 <;>
        simp [gemCall, gemDispatch, gemReplaceInner, hne, hold, hz, hcnt]
  · intro st old exp
    simp [gemCall, gemDispatch, gemReplaceInner]

/-- C8 witness: three occurrences against `expected_replacements = 2` on a
concrete file fail with a structured error and leave the state unchanged. -/
theorem gemini_replace_contract_witness :
    ((gemCall ⟨some (str "x x x\n"), histInit⟩ (some (str "x")) (some (str "y"))
        (some 2)).1.error).isSome = true :=
  (gemini_replace_contract.2.2.2.1 ⟨some (str "x x x\n"), histInit⟩ (str "x x x\n")
    (str "x") (str "y") (some 2) rfl (by decide) (by decide)).1

theorem noLoneLFGo_replaceAllGo (fuel : Nat) :
    ∀ (s : Text), s.length ≤ fuel → ∀ (prev : Char),
      noLoneLFGo prev (replaceAllGo ['\n'] (str "\r\n") fuel s) = true := by
  have hstr : str "\r\n" = ['\r', '\n'] := rfl
  induction fuel with
  | zero =>
    intro s hs prev
    have : s = [] := List.length_eq_zero.mp (Nat.le_zero.mp hs)
    subst this
    rfl
  | succ fuel ih =>
    intro s hs prev
    cases s with
    | nil => rfl
    | cons c rest =>
      simp only [List.length_cons] at hs
      by_cases hc : c = '\n'
      · subst hc
        have hpre : (['\n'] : Text).isPrefixOf ('\n' :: rest) = true := by
          simp [List.isPrefixOf]
        simp only [replaceAllGo, hpre, if_true, hstr]
        simp only [List.cons_append, List.nil_append, List.length_cons, List.length_nil,
          Nat.sub_self, List.drop_zero, noLoneLFGo]
        have hr := ih rest (by omega) '\n'
        rw [hstr] at hr
        simp [hr]
      · have hpre : (['\n'] : Text).isPrefixOf (c :: rest) = false := by
          simp [List.isPrefixOf]
          exact fun h => hc h.symm
        simp only [replaceAllGo, hpre, Bool.false_eq_true, if_false]
        have hr := ih rest (by omega) c
        simp [noLoneLFGo, hc, hr]

theorem noLoneLF_crlfRestore (s : Text) :
    noLoneLF (replaceAll ['\n'] (str "\r\n") s) = true := by
  have hstr : str "\r\n" = ['\r', '\n'] := rfl
  unfold replaceAll
  rw [if_neg (by simp)]
  cases s with
  | nil => rfl
  | cons c rest =>
    by_cases hc : c = '\n'
    · subst hc
      have hpre : (['\n'] : Text).isPrefixOf ('\n' :: rest) = true := by
        simp [List.isPrefixOf]
      simp only [List.length_cons, replaceAllGo, hpre, if_true, hstr]
      simp only [List.cons_append, List.nil_append, List.length_cons, List.length_nil,
        Nat.sub_self, List.drop_zero, noLoneLF, noLoneLFGo]
      have hr := noLoneLFGo_replaceAllGo rest.length rest (Nat.le_refl _) '\n'
      rw [hstr] at hr
      simp [hr]
    · have hpre : (['\n'] : Text).isPrefixOf (c :: rest) = false := by
        simp [List.isPrefixOf]
        exact fun h => hc h.symm
      simp only [List.length_cons, replaceAllGo, hpre, Bool.false_eq_true, if_false]
      have hr := noLoneLFGo_replaceAllGo rest.length rest (Nat.le_refl _) c
      simp [noLoneLF, hc, hr]

/-- C9.  A successful alternate-flavor replace on an existing file performs
its matching on the EOL-normalized text (the occurrence count computed there
equals the required count and is positive), and the line-ending style
detected from the raw text is reapplied to the output, whichever it is: if
the raw text contains a CRLF, every LF of the replaced text is turned back
into CRLF — in particular the output retains CRLF throughout, holding no
lone LF; if it contains a CR but no LF (a lone-CR file), every LF is turned
back into CR; otherwise (LF line ends or none) the replaced normalized text
is written unchanged. -/
theorem gemini_eol_preservation (st : EditorState) (raw old new : Text) (exp : Option Nat)
    (hf : st.file = some raw)
    (hok : (gemCall st (some old) (some new) exp).1.error = none) :
    (countOcc old (normalizeEol raw) = exp.getD 1 ∧
      0 < countOcc old (normalizeEol raw)) ∧
    (containsSub (str "\r\n") raw = true →
      (gemCall st (some old) (some new) exp).2.file =
        some (replaceAll ['\n'] (str "\r\n") (replaceAll old new (normalizeEol raw))) ∧
      noLoneLF (((gemCall st (some old) (some new) exp).2.file).getD []) = true) ∧
    (containsSub (str "\r\n") raw = false → containsSub ['\r'] raw = true →
      containsSub ['\n'] raw = false →
      (gemCall st (some old) (some new) exp).2.file =
        some (replaceAll ['\n'] ['\r'] (replaceAll old new (normalizeEol raw)))) ∧
    (containsSub (str "\r\n") raw = false →
      ¬(containsSub ['\r'] raw = true ∧ containsSub ['\n'] raw = false) →
      (gemCall st (some old) (some new) exp).2.file =
        some (replaceAll old new (normalizeEol raw))) := by
  obtain ⟨file, hist⟩ := st
  obtain rfl : file = some raw := hf
  by_cases h1 : new = old
  · subst h1; simp [gemCall, gemDispatch, gemReplaceInner] at hok
  by_cases h2 : old = []
  · subst h2; simp [gemCall, gemDispatch, gemReplaceInner, h1] at hok
  by_cases h3 : countOcc old (normalizeEol raw) = 0
  · simp [gemCall, gemDispatch, gemReplaceInner, h1, h2, h3] at hok
  by_cases h4 : countOcc old (normalizeEol raw) = exp.getD 1
  · have h5 : exp.getD 1 ≠ 0 := by omega
    refine ⟨⟨h4, by omega⟩, ?_, ?_, ?_⟩
    · intro hcrlf
      constructor
      · simp [gemCall, gemDispatch, gemReplaceInner, h1, h2, h3, h4, h5, hcrlf]
      · simp [gemCall, gemDispatch, gemReplaceInner, h1, h2, h3, h4, h5, hcrlf,
          noLoneLF_crlfRestore]
    · intro hncrlf hcr hnlf
      simp [gemCall, gemDispatch, gemReplaceInner, h1, h2, h3, h4, h5, hncrlf, hcr, hnlf]
    · intro hncrlf hnot
      have h6 : ¬(containsSub ['\r'] raw = true ∧ ¬(containsSub ['\n'] raw = true)) := by
        intro hc
        exact hnot ⟨hc.1, by rw [← Bool.not_eq_true]; exact hc.2⟩
      simp [gemCall, gemDispatch, gemReplaceInner, h1, h2, h3, h4, h5, hncrlf, h6]
      intro hcr hnlf
      exact absurd ⟨hcr, hnlf⟩ hnot
  · simp [gemCall, gemDispatch, gemReplaceInner, h1, h2, h3, h4] at hok

/-- C9 witness: spec scenario D (a CRLF file keeps CRLF throughout) plus the
lone-CR style (a CR-only file keeps CR). -/
theorem gemini_eol_preservation_witness :
    (gemCall ⟨some (str "A\r\nB\r\nC\r\n"), histInit⟩ (some (str "B"))
        (some (str "X")) none).2.file = some (str "A\r\nX\r\nC\r\n") ∧
    (gemCall ⟨some (str "A\rB\rC\r"), histInit⟩ (some (str "B"))
        (some (str "X")) none).2.file = some (str "A\rX\rC\r") := by
  constructor
  · have h := gemini_eol_preservation ⟨some (str "A\r\nB\r\nC\r\n"), histInit⟩
      (str "A\r\nB\r\nC\r\n") (str "B") (str "X") none rfl (by decide)
    exact ((h.2.1 (by decide)).1).trans (by decide)
  · have h := gemini_eol_preservation ⟨some (str "A\rB\rC\r"), histInit⟩
      (str "A\rB\rC\r") (str "B") (str "X") none rfl (by decide)
    exact (h.2.2.1 (by decide) (by decide) (by decide)).trans (by decide)

/-! ### Fenced matcher lemmas (C7) -/

theorem lstrip_space_append (a b : Text) (h : ∀ c ∈ a, isSpaceChar c = true) :
    lstripText (a ++ b) = lstripText b := by
  induction a with
  | nil => rfl
  | cons x a ih =>
    simp only [lstripText, List.cons_append, List.dropWhile_cons,
      h x (List.mem_cons_self x a), if_true]
    exact ih (fun c hc => h c (List.mem_cons_of_mem _ hc))

theorem takeWhile_space_append (a : Text) (x : Char) (b : Text)
    (ha : ∀ c ∈ a, isSpaceChar c = true) (hx : isSpaceChar x = false) :
    leadWs (a ++ x :: b) = a := by
  induction a with
  | nil => simp [leadWs, List.takeWhile_cons, hx]
  | cons y a ih =>
    simp only [leadWs, List.cons_append, List.takeWhile_cons,
      ha y (List.mem_cons_self y a), if_true] at ih ⊢
    rw [ih (fun c hc => ha c (List.mem_cons_of_mem _ hc))]

theorem lstrip_head_not_space (l : Text) (h : isBlank l = false) :
    ∃ x b, lstripText l = x :: b ∧ isSpaceChar x = false := by
  induction l with
  | nil => simp [isBlank] at h
  | cons c rest ih =>
    by_cases hc : isSpaceChar c = true
    · simp only [isBlank, List.all_cons, hc, Bool.true_and] at h
      obtain ⟨x, b, hb, hx⟩ := ih h
      exact ⟨x, b, by simp [lstripText, List.dropWhile_cons, hc] at hb ⊢; exact hb, hx⟩
    · exact ⟨c, rest, by simp [lstripText, List.dropWhile_cons, hc],
        Bool.not_eq_true _ ▸ hc⟩

theorem lead_lstrip_eq (l : Text) : leadWs l ++ lstripText l = l :=
  List.takeWhile_append_dropWhile _ _

theorem lead_all_space (l : Text) : ∀ c ∈ leadWs l, isSpaceChar c = true :=
  fun _ hc => List.mem_takeWhile_imp hc

theorem isPrefixOf_append_self {α : Type} [BEq α] [LawfulBEq α] (a t : List α) :
    a.isPrefixOf (a ++ t) = true := by
  induction a with
  | nil => simp [List.isPrefixOf]
  | cons x a ih => simp [List.isPrefixOf, ih]

theorem isPrefixOf_le_length {α : Type} [BEq α] (a b : List α)
    (h : a.isPrefixOf b = true) : a.length ≤ b.length := by
  induction a generalizing b with
  | nil => simp
  | cons x a ih =>
    cases b with
    | nil => simp [List.isPrefixOf] at h
    | cons y b =>
      simp only [List.isPrefixOf, Bool.and_eq_true, beq_iff_eq] at h
      simpa using ih b h.2

theorem isPrefixOf_eq_of_length {α : Type} [BEq α] [LawfulBEq α] (a b : List α)
    (h : a.isPrefixOf b = true) (hl : a.length = b.length) : a = b := by
  induction a generalizing b with
  | nil => cases b with | nil => rfl | cons y b => simp at hl
  | cons x a ih =>
    cases b with
    | nil => simp [List.isPrefixOf] at h
    | cons y b =>
      simp only [List.isPrefixOf, Bool.and_eq_true, beq_iff_eq] at h
      simp only [List.length_cons, Nat.add_right_cancel_iff] at hl
      rw [h.1, ih b h.2 hl]

theorem map_eq_self_mem {α : Type} (f : α → α) (l : List α) (h : l.map f = l) :
    ∀ x ∈ l, f x = x := by
  induction l with
  | nil => simp
  | cons a l ih =>
    simp only [List.map_cons, List.cons.injEq] at h
    intro x hx
    rcases List.mem_cons.mp hx with rfl | hx
    · exact h.1
    · exact ih h.2 x hx

theorem dedup_all_eq (w : Text) (ds : List Text) (hne : ds ≠ [])
    (h : ∀ x ∈ ds, x = w) : ds.dedup = [w] := by
  induction ds with
  | nil => exact absurd rfl hne
  | cons a ds ih =>
    have ha : a = w := h a (List.mem_cons_self a ds)
    cases ds with
    | nil => rw [ha]; simp
    | cons b ds =>
      have hb : (b :: ds).dedup = [w] :=
        ih (by simp) (fun x hx => h x (List.mem_cons_of_mem _ hx))
      have hw : a ∈ b :: ds := by
        have hb' : b = w := h b (by simp)
        rw [ha, hb']
        simp
      rw [List.dedup_cons_of_mem hw, hb]

theorem zip_map_self {α β : Type} (f : α → β) (l : List α) :
    (l.map f).zip l = l.map (fun p => (f p, p)) := by
  induction l with
  | nil => rfl
  | cons a l ih => simp [ih]

theorem reindent_lstrip (ws : Text) (hsp : ∀ c ∈ ws, isSpaceChar c = true) (p : Text) :
    lstripText (if isBlank p then p else leadWs p ++ ws ++ lstripText p) = lstripText p := by
  by_cases hb : isBlank p = true
  · simp [hb]
  · rw [if_neg (by simp [hb])]
    obtain ⟨x, b, hxb, hx⟩ :=
      lstrip_head_not_space p (by rw [← Bool.not_eq_true]; exact hb)
    rw [hxb, show leadWs p ++ ws ++ (x :: b) = (leadWs p ++ ws) ++ (x :: b) from by
      simp [List.append_assoc]]
    rw [lstrip_space_append _ _ (by
      intro c hc
      rcases List.mem_append.mp hc with h | h
      · exact lead_all_space p c h
      · exact hsp c h)]
    simp [lstripText, List.dropWhile_cons, hx, hxb]

theorem reindent_lead (ws : Text) (hsp : ∀ c ∈ ws, isSpaceChar c = true) (p : Text)
    (hb : isBlank p = false) :
    leadWs (if isBlank p then p else leadWs p ++ ws ++ lstripText p) = leadWs p ++ ws ∧
    isBlank (if isBlank p then p else leadWs p ++ ws ++ lstripText p) = false := by
  rw [if_neg (by simp [hb])]
  obtain ⟨x, b, hxb, hx⟩ := lstrip_head_not_space p hb
  rw [hxb, show leadWs p ++ ws ++ (x :: b) = (leadWs p ++ ws) ++ (x :: b) from by
    simp [List.append_assoc]]
  constructor
  · exact takeWhile_space_append _ _ _ (by
      intro c hc
      rcases List.mem_append.mp hc with h | h
      · exact lead_all_space p c h
      · exact hsp c h) hx
  · rw [← Bool.not_eq_true]
    intro hall
    have hxmem : x ∈ (leadWs p ++ ws) ++ (x :: b) := by simp
    have := List.all_eq_true.mp hall x hxmem
    rw [hx] at this
    exact Bool.false_ne_true this

theorem collectDiffs_reindent (ws : Text) (hsp : ∀ c ∈ ws, isSpaceChar c = true)
    (part : List Text) :
    ∃ ds, collectDiffs (part.map
        (fun p => ((if isBlank p then p else leadWs p ++ ws ++ lstripText p), p))) = some ds ∧
      (∀ x ∈ ds, x = ws) ∧
      ds.length = (part.filter (fun p => !(isBlank p))).length := by
  induction part with
  | nil => exact ⟨[], rfl, by simp, by simp⟩
  | cons p part ih =>
    obtain ⟨ds, hds, hall, hlen⟩ := ih
    by_cases hb : isBlank p = true
    · refine ⟨ds, ?_, hall, ?_⟩
      · simp only [List.map_cons, collectDiffs, hb, if_true]
        exact hds
      · simpa [List.filter_cons, hb] using hlen
    · have hb' : isBlank p = false := by rw [← Bool.not_eq_true]; exact hb
      obtain ⟨hlead, hnb⟩ := reindent_lead ws hsp p hb'
      refine ⟨ws :: ds, ?_, ?_, ?_⟩
      · simp only [List.map_cons, collectDiffs, hnb, Bool.false_eq_true, if_false]
        rw [hlead, isPrefixOf_append_self, if_pos rfl, hds, List.drop_left]
      · intro x hx
        rcases List.mem_cons.mp hx with rfl | hx
        · rfl
        · exact hall x hx
      · simpa [List.filter_cons, hb'] using congrArg Nat.succ hlen

theorem matchButFor_reindent (ws : Text)
    (hsp : ∀ c ∈ ws, isSpaceChar c = true) (part : List Text)
    (hnb : ∃ p ∈ part, isBlank p = false) :
    matchButForLeadingWs
      (part.map (fun l => if isBlank l then l else leadWs l ++ ws ++ lstripText l))
      part = some ws := by
  unfold matchButForLeadingWs
  rw [if_neg (by simp)]
  have hall : ((part.map
      (fun l => if isBlank l then l else leadWs l ++ ws ++ lstripText l)).zip part).all
        (fun wp => lstripText wp.1 == lstripText wp.2) = true := by
    rw [zip_map_self]
    rw [List.all_eq_true]
    intro wp hwp
    obtain ⟨p, hp, rfl⟩ := List.mem_map.mp hwp
    simp only [beq_iff_eq]
    exact reindent_lstrip ws hsp p
  rw [hall]
  simp only [Bool.not_true, Bool.false_eq_true, if_false]
  rw [zip_map_self]
  obtain ⟨ds, hds, hdall, hdlen⟩ := collectDiffs_reindent ws hsp part
  rw [hds]
  have hne : ds ≠ [] := by
    obtain ⟨p, hp, hbp⟩ := hnb
    intro h0
    have hmem : p ∈ part.filter (fun q => !(isBlank q)) :=
      List.mem_filter.mpr ⟨hp, by simp [hbp]⟩
    have hpos : 0 < (part.filter (fun q => !(isBlank q))).length :=
      List.length_pos.mpr (List.ne_nil_of_mem hmem)
    rw [h0] at hdlen
    simp only [List.length_nil] at hdlen
    omega
  have hdd := dedup_all_eq ws ds hne hdall
  simp [hdd]

theorem findExactIdxGo_none_short (part : List Text) (hpart : part ≠ []) :
    ∀ (l : List Text) (i : Nat), l.length < part.length → findExactIdxGo part l i = none := by
  intro l
  induction l with
  | nil =>
    intro i _
    cases part with
    | nil => exact absurd rfl hpart
    | cons q qs => rfl
  | cons x l ih =>
    intro i hlen
    have hpre : part.isPrefixOf (x :: l) = false := by
      rw [← Bool.not_eq_true]
      intro h
      have hle := isPrefixOf_le_length part (x :: l) h
      simp only [List.length_cons] at hle hlen
      omega
    simp only [findExactIdxGo, hpre, Bool.false_eq_true, if_false]
    refine ih (i + 1) ?_
    simp only [List.length_cons] at hlen
    omega

/-- C7 (amended).  (i) The fenced strategy ladder tries the exact contiguous
match first and an exact match never falls through to the whitespace-flexible
path.  (ii) For every document obtained from the search block by inserting
one constant whitespace string `ws` after each non-blank line's own leading
whitespace (for space-only indentation this is exactly a uniform `+ws`
re-indentation, e.g. +2 spaces), the exact strategy fails, the
whitespace-flexible strategy matches with detected offset `ws`, and `ws` is
prepended to every non-blank line of the replacement before substitution. -/
theorem fenced_precedence_and_reindent :
    (∀ (whole part repl : List Text) (r : Text),
      fencedExactReplace whole part repl = some r →
        fencedTryStrategies whole part repl = some r) ∧
    (∀ (part repl : List Text) (ws : Text),
      ws ≠ [] → (∀ c ∈ ws, isSpaceChar c = true) →
      (∃ p ∈ part, isBlank p = false) →
        fencedExactReplace
          (part.map (fun l => if isBlank l then l else leadWs l ++ ws ++ lstripText l))
          part repl = none ∧
        fencedFlexReplace
          (part.map (fun l => if isBlank l then l else leadWs l ++ ws ++ lstripText l))
          part repl =
          some (fencedJoinFix part repl
            (part.map (fun l => if isBlank l then l else leadWs l ++ ws ++ lstripText l))
            ((repl.map (fun rl => if !(isBlank rl) then ws ++ rl else rl)).flatten)) ∧
        fencedTryStrategies
          (part.map (fun l => if isBlank l then l else leadWs l ++ ws ++ lstripText l))
          part repl =
          fencedFlexReplace
            (part.map (fun l => if isBlank l then l else leadWs l ++ ws ++ lstripText l))
            part repl) := by
  constructor
  · intro whole part repl r h
    unfold fencedTryStrategies
    rw [h]
  · intro part repl ws hws hsp hnb
    have hpne : part ≠ [] := by
      obtain ⟨p, hp, -⟩ := hnb
      exact List.ne_nil_of_mem hp
    have hfind : findExactIdxGo part
        (part.map (fun l => if isBlank l then l else leadWs l ++ ws ++ lstripText l))
        0 = none := by
      obtain ⟨p₀, tail, rfl⟩ := List.exists_cons_of_ne_nil hpne
      have hpre : (p₀ :: tail).isPrefixOf
          ((p₀ :: tail).map
            (fun l => if isBlank l then l else leadWs l ++ ws ++ lstripText l)) = false := by
        rw [← Bool.not_eq_true]
        intro hpf
        have heq : (p₀ :: tail) =
            (p₀ :: tail).map
              (fun l => if isBlank l then l else leadWs l ++ ws ++ lstripText l) :=
          isPrefixOf_eq_of_length _ _ hpf (by simp)
        obtain ⟨p, hp, hbp⟩ := hnb
        have hfp := map_eq_self_mem _ _ heq.symm p hp
        rw [if_neg (by simp [hbp])] at hfp
        have hlen := congrArg List.length hfp
        have hdec := congrArg List.length (lead_lstrip_eq p)
        simp only [List.length_append] at hlen hdec
        have hz : ws.length = 0 := by omega
        exact hws (List.length_eq_zero.mp hz)
      cases hm : (p₀ :: tail).map
          (fun l => if isBlank l then l else leadWs l ++ ws ++ lstripText l) with
      | nil => simp at hm
      | cons w₀ wtail =>
        rw [hm] at hpre
        simp only [findExactIdxGo, hpre, Bool.false_eq_true, if_false]
        refine findExactIdxGo_none_short _ hpne _ _ ?_
        have hlm := congrArg List.length hm
        simp only [List.length_map, List.length_cons] at hlm ⊢
        omega
    have hexact : fencedExactReplace
        (part.map (fun l => if isBlank l then l else leadWs l ++ ws ++ lstripText l))
        part repl = none := by
      unfold fencedExactReplace
      rw [if_neg hpne, hfind]
    have hflex : findFlexIdxGo part
        (part.map (fun l => if isBlank l then l else leadWs l ++ ws ++ lstripText l)) 0 =
        some (0, ws) := by
      have hmm := matchButFor_reindent ws hsp part hnb
      obtain ⟨p₀, tail, rfl⟩ := List.exists_cons_of_ne_nil hpne
      simp only [List.map_cons]
      have htake : ((fun l => if isBlank l then l else leadWs l ++ ws ++ lstripText l) p₀ ::
          tail.map (fun l => if isBlank l then l else leadWs l ++ ws ++ lstripText l)).take
            (p₀ :: tail).length =
          (fun l => if isBlank l then l else leadWs l ++ ws ++ lstripText l) p₀ ::
            tail.map (fun l => if isBlank l then l else leadWs l ++ ws ++ lstripText l) := by
        rw [show (p₀ :: tail).length =
            ((fun l => if isBlank l then l else leadWs l ++ ws ++ lstripText l) p₀ ::
              tail.map (fun l => if isBlank l then l else leadWs l ++ ws ++ lstripText l)).length
          from by simp]
        exact List.take_length _
      simp only [findFlexIdxGo, htake]
      rw [show ((fun l => if isBlank l then l else leadWs l ++ ws ++ lstripText l) p₀ ::
          tail.map (fun l => if isBlank l then l else leadWs l ++ ws ++ lstripText l)) =
          (p₀ :: tail).map (fun l => if isBlank l then l else leadWs l ++ ws ++ lstripText l)
        from by simp]
      rw [hmm]
    refine ⟨hexact, ?_, ?_⟩
    · unfold fencedFlexReplace
      rw [if_neg hpne, hflex]
      have hdrop : (part.map
          (fun l => if isBlank l then l else leadWs l ++ ws ++ lstripText l)).drop
            (0 + part.length) = [] := by
        rw [Nat.zero_add, show part.length = (part.map
          (fun l => if isBlank l then l else leadWs l ++ ws ++ lstripText l)).length
          from by simp]
        exact List.drop_length _
      simp only [List.take_zero, List.nil_append, hdrop, List.append_nil]
    · unfold fencedTryStrategies
      rw [hexact]

/-- C7 witness: an exact match is taken by the ladder, and a `+2`-space
uniformly re-indented document matches via the flexible strategy with the
offset reapplied to the replacement. -/
theorem fenced_precedence_and_reindent_witness :
    fencedTryStrategies [str "a\n"] [str "a\n"] [str "b\n"] = some (str "b\n") ∧
    fencedFlexReplace [str "  a\n"] [str "a\n"] [str "b\n"] = some (str "  b\n") := by
  constructor
  · exact fenced_precedence_and_reindent.1 [str "a\n"] [str "a\n"] [str "b\n"]
      (str "b\n") (by decide)
  · have h := (fenced_precedence_and_reindent.2 [str "a\n"] [str "b\n"] (str "  ")
      (by decide) (by decide) (by decide)).2.1
    exact (by decide : fencedFlexReplace [str "  a\n"] [str "a\n"] [str "b\n"] =
      fencedFlexReplace
        ([str "a\n"].map (fun l => if isBlank l then l else leadWs l ++ str "  " ++ lstripText l))
        [str "a\n"] [str "b\n"]).trans (h.trans (by decide))

/-! ### FileCache lemmas (C4) -/

theorem foldl_minStep_some (l : List CacheRec) :
    ∀ (acc : Option CacheRec) (m : CacheRec),
      l.foldl minStep acc = some m → acc = some m ∨ m ∈ l := by
  induction l with
  | nil => intro acc m h; exact Or.inl h
  | cons r l ih =>
    intro acc m h
    rcases ih (minStep acc r) m h with h1 | h1
    · cases acc with
      | none =>
        simp only [minStep, Option.some.injEq] at h1
        exact Or.inr (h1 ▸ List.mem_cons_self r l)
      | some a =>
        simp only [minStep] at h1
        by_cases hrt : r.time < a.time
        · rw [if_pos hrt] at h1
          exact Or.inr (Option.some.inj h1 ▸ List.mem_cons_self r l)
        · rw [if_neg hrt] at h1
          exact Or.inl h1
    · exact Or.inr (List.mem_cons_of_mem r h1)

theorem foldl_minStep_none (l : List CacheRec) :
    ∀ (acc : Option CacheRec), l.foldl minStep acc = none → acc = none ∧ l = [] := by
  induction l with
  | nil => intro acc h; exact ⟨h, rfl⟩
  | cons r l ih =>
    intro acc h
    have h1 := (ih (minStep acc r) h).1
    exfalso
    cases acc with
    | none => simp [minStep] at h1
    | some a =>
      simp only [minStep] at h1
      by_cases hrt : r.time < a.time
      · rw [if_pos hrt] at h1; exact Option.noConfusion h1
      · rw [if_neg hrt] at h1; exact Option.noConfusion h1

theorem foldl_minStep_min (l : List CacheRec) :
    ∀ (acc : Option CacheRec) (m : CacheRec), l.foldl minStep acc = some m →
      (∀ r ∈ l, m.time ≤ r.time) ∧ (∀ a, acc = some a → m.time ≤ a.time) := by
  induction l with
  | nil =>
    intro acc m h
    exact ⟨by simp, fun a ha => by
      rw [ha] at h
      rw [Option.some.inj h]⟩
  | cons r l ih =>
    intro acc m h
    obtain ⟨hl, hacc⟩ := ih (minStep acc r) m h
    have hr : m.time ≤ r.time := by
      cases acc with
      | none => exact hacc r rfl
      | some a =>
        by_cases hrt : r.time < a.time
        · exact hacc r (by simp [minStep, hrt])
        · have := hacc a (by simp [minStep, hrt])
          omega
    refine ⟨fun x hx => ?_, fun a ha => ?_⟩
    · rcases List.mem_cons.mp hx with rfl | hx
      · exact hr
      · exact hl x hx
    · cases acc with
      | none => exact Option.noConfusion ha
      | some a0 =>
        have haa : a0 = a := Option.some.inj ha
        subst haa
        by_cases hrt : r.time < a0.time
        · have := hacc r (by simp [minStep, hrt])
          omega
        · exact hacc a0 (by simp [minStep, hrt])

theorem oldestExcluding_spec (recs : List CacheRec) (excl : Option String) (m : CacheRec)
    (h : oldestExcluding recs excl = some m) :
    m ∈ recs ∧ excl ≠ some m.key ∧
      ∀ r ∈ recs, excl ≠ some r.key → m.time ≤ r.time := by
  unfold oldestExcluding at h
  have hmem := foldl_minStep_some _ _ _ h
  rcases hmem with h1 | h1
  · exact Option.noConfusion h1
  · have hm := List.mem_filter.mp h1
    refine ⟨hm.1, by simpa using hm.2, fun r hr hrk => ?_⟩
    exact (foldl_minStep_min _ _ _ h).1 r (List.mem_filter.mpr ⟨hr, by simpa using hrk⟩)

theorem oldestExcluding_none (recs : List CacheRec) (excl : Option String)
    (h : oldestExcluding recs excl = none) :
    recs.filter (fun r => excl ≠ some r.key) = [] :=
  (foldl_minStep_none _ _ h).2

theorem filter_candidates_ne_nil (recs : List CacheRec) (excl : Option String)
    (hnd : nodupKeys recs) (hlen : 1 < recs.length) :
    recs.filter (fun r => excl ≠ some r.key) ≠ [] := by
  intro hempty
  have hall : ∀ r ∈ recs, excl = some r.key := by
    intro r hr
    have := List.filter_eq_nil_iff.mp hempty r hr
    simpa using this
  cases recs with
  | nil => simp at hlen
  | cons a l =>
    cases l with
    | nil => simp at hlen
    | cons b l2 =>
      have ha := hall a (by simp)
      have hb := hall b (by simp)
      have hkey : a.key = b.key := by
        rw [ha] at hb
        exact Option.some.inj hb
      unfold nodupKeys at hnd
      simp only [List.map_cons, List.nodup_cons, List.mem_cons] at hnd
      exact hnd.1 (Or.inl hkey)

theorem totalSize_filter_le (l : List CacheRec) (p : CacheRec → Bool) :
    totalSize (l.filter p) ≤ totalSize l := by
  induction l with
  | nil => exact Nat.le_refl _
  | cons a l ih =>
    by_cases ha : p a = true <;>
      simp only [totalSize, List.filter_cons, ha, Bool.false_eq_true, if_true, if_false,
        List.map_cons, List.sum_cons] at ih ⊢ <;>
      omega

theorem nodupKeys_filter (l : List CacheRec) (p : CacheRec → Bool) (h : nodupKeys l) :
    nodupKeys (l.filter p) :=
  List.Sublist.nodup (List.Sublist.map CacheRec.key (List.filter_sublist l)) h

theorem nodupKeys_erase (l : List CacheRec) (m : CacheRec) (h : nodupKeys l) :
    nodupKeys (l.erase m) :=
  List.Sublist.nodup (List.Sublist.map CacheRec.key (List.erase_sublist m l)) h

theorem filter_key_totalSize (l : List CacheRec) (a : CacheRec)
    (hnd : nodupKeys l) (ha : a ∈ l) :
    totalSize (l.filter (fun r => r.key ≠ a.key)) + a.size = totalSize l ∧
      (l.filter (fun r => r.key ≠ a.key)).length + 1 = l.length := by
  induction l with
  | nil => simp at ha
  | cons b l ih =>
    unfold nodupKeys at hnd
    simp only [List.map_cons, List.nodup_cons] at hnd
    by_cases hk : b.key = a.key
    · have hab : a = b := by
        rcases List.mem_cons.mp ha with rfl | hal
        · rfl
        · exact absurd (hk ▸ List.mem_map_of_mem CacheRec.key hal) hnd.1
      have hrest : l.filter (fun r => r.key ≠ a.key) = l := by
        refine List.filter_eq_self.mpr (fun r hr => ?_)
        have hra : r.key ≠ a.key := fun hrk =>
          hnd.1 (hk ▸ hrk ▸ List.mem_map_of_mem CacheRec.key hr)
        simpa using hra
      rw [List.filter_cons_of_neg (by simp [hk]), hrest]
      subst hab
      constructor
      · simp only [totalSize, List.map_cons, List.sum_cons]
        omega
      · simp
    · have hal : a ∈ l := by
        rcases List.mem_cons.mp ha with rfl | hal
        · exact absurd rfl hk
        · exact hal
      obtain ⟨hs, hlen⟩ := ih hnd.2 hal
      rw [List.filter_cons_of_pos (by simp [hk])]
      constructor
      · simp only [totalSize, List.map_cons, List.sum_cons] at hs ⊢
        omega
      · simp only [List.length_cons]
        omega

theorem cacheEvictGo_spec (limit need : Nat) (excl : Option String) :
    ∀ (fuel : Nat) (recs : List CacheRec), recs.length ≤ fuel → nodupKeys recs →
      (totalSize (cacheEvictGo limit need excl fuel recs) + need ≤ limit ∨
        (cacheEvictGo limit need excl fuel recs).length ≤ 1) ∧
      nodupKeys (cacheEvictGo limit need excl fuel recs) ∧
      (∀ r ∈ cacheEvictGo limit need excl fuel recs, r ∈ recs) ∧
      (∀ r ∈ recs, excl = some r.key → r ∈ cacheEvictGo limit need excl fuel recs) := by
  intro fuel
  induction fuel with
  | zero =>
    intro recs hlen hnd
    have : recs = [] := List.length_eq_zero.mp (Nat.le_zero.mp hlen)
    subst this
    exact ⟨Or.inr (by simp [cacheEvictGo]), hnd, by simp [cacheEvictGo], by simp⟩
  | succ fuel ih =>
    intro recs hlen hnd
    by_cases hguard : totalSize recs + need > limit ∧ recs.length > 1
    · have hne := filter_candidates_ne_nil recs excl hnd hguard.2
      cases hold : oldestExcluding recs excl with
      | none => exact absurd (oldestExcluding_none recs excl hold) hne
      | some m =>
        obtain ⟨hm, hmk, -⟩ := oldestExcluding_spec recs excl m hold
        have hstep : cacheEvictGo limit need excl (fuel + 1) recs =
            cacheEvictGo limit need excl fuel (recs.erase m) := by
          simp only [cacheEvictGo]
          rw [if_pos hguard, hold]
        have herase_len : (recs.erase m).length ≤ fuel := by
          rw [List.length_erase_of_mem hm]
          omega
        obtain ⟨h1, h2, h3, h4⟩ := ih (recs.erase m) herase_len (nodupKeys_erase recs m hnd)
        rw [hstep]
        refine ⟨h1, h2, fun r hr => (recs.erase_sublist m).mem (h3 r hr), fun r hr hk => ?_⟩
        refine h4 r ?_ hk
        have hrm : r ≠ m := by
          intro hrm
          rw [hrm] at hk
          exact hmk hk
        exact (List.mem_erase_of_ne hrm).mpr hr
    · have hres : cacheEvictGo limit need excl (fuel + 1) recs = recs := by
        simp only [cacheEvictGo]
        rw [if_neg hguard]
      rw [hres]
      rw [not_and_or] at hguard
      refine ⟨?_, hnd, fun r hr => hr, fun r hr _ => hr⟩
      rcases hguard with h | h
      · exact Or.inl (by omega)
      · exact Or.inr (by omega)

theorem totalSize_write (recs : List CacheRec) (key : String) (size time : Nat) :
    totalSize (recs ++ [⟨key, size, time⟩]) = totalSize recs + size := by
  simp [totalSize]

theorem nodupKeys_write (recs : List CacheRec) (key : String) (size time : Nat)
    (h : nodupKeys recs) :
    nodupKeys (recs.filter (fun r => r.key ≠ key) ++ [⟨key, size, time⟩]) := by
  unfold nodupKeys
  rw [List.map_append, List.nodup_append]
  refine ⟨nodupKeys_filter recs _ h, by simp, ?_⟩
  intro k hk hk'
  simp only [List.map_cons, List.map_nil, List.mem_singleton] at hk'
  obtain ⟨r, hr, rfl⟩ := List.mem_map.mp hk
  have := (List.mem_filter.mp hr).2
  simp only [ne_eq, decide_not, Bool.not_eq_eq_eq_not, Bool.not_true,
    decide_eq_false_iff_not] at this
  exact this hk'

theorem cacheSet_inv (limit : Nat) (st : CacheState) (key : String) (size : Nat)
    (hnd : nodupKeys st.recs) (hinv : totalSize st.recs ≤ limit ∨ st.recs.length ≤ 2) :
    nodupKeys (cacheSet (some limit) st key size).recs ∧
    (totalSize (cacheSet (some limit) st key size).recs ≤ limit ∨
      (cacheSet (some limit) st key size).recs.length ≤ 2) := by
  cases hfind : st.recs.find? (fun r => r.key = key) with
  | none =>
    have hnokey : ∀ r ∈ st.recs, r.key ≠ key := by
      intro r hr
      have := List.find?_eq_none.mp hfind r hr
      simpa using this
    obtain ⟨h1, h2, h3, -⟩ :=
      cacheEvictGo_spec limit size (some key) st.recs.length st.recs (Nat.le_refl _) hnd
    have hfid : (cacheEvictGo limit size (some key) st.recs.length st.recs).filter
        (fun r => r.key ≠ key) =
        cacheEvictGo limit size (some key) st.recs.length st.recs :=
      List.filter_eq_self.mpr (fun r hr => by simpa using hnokey r (h3 r hr))
    simp only [cacheSet, hfind, cacheEvict]
    rw [hfid]
    refine ⟨?_, ?_⟩
    · have := nodupKeys_write (cacheEvictGo limit size (some key) st.recs.length st.recs)
        key size st.clock h2
      rw [hfid] at this
      exact this
    · rw [totalSize_write]
      rcases h1 with h1 | h1
      · exact Or.inl (by omega)
      · refine Or.inr ?_
        rw [List.length_append]
        simp only [List.length_cons, List.length_nil]
        omega
  | some old =>
    have hkey : old.key = key := by
      have := List.find?_some hfind
      simpa using this
    have hmem : old ∈ st.recs := List.mem_of_find?_eq_some hfind
    by_cases hgrow : size > old.size
    · obtain ⟨h1, h2, h3, h4⟩ :=
        cacheEvictGo_spec limit (size - old.size) (some key) st.recs.length st.recs
          (Nat.le_refl _) hnd
      have holdin : old ∈ cacheEvictGo limit (size - old.size) (some key)
          st.recs.length st.recs := h4 old hmem (by rw [hkey])
      obtain ⟨hts, hlen⟩ := filter_key_totalSize
        (cacheEvictGo limit (size - old.size) (some key) st.recs.length st.recs) old h2 holdin
      rw [hkey] at hts hlen
      simp only [cacheSet, hfind, if_pos hgrow, cacheEvict]
      refine ⟨nodupKeys_write _ key size st.clock h2, ?_⟩
      rw [totalSize_write]
      rcases h1 with h1 | h1
      · exact Or.inl (by omega)
      · refine Or.inr ?_
        rw [List.length_append]
        simp only [List.length_cons, List.length_nil]
        omega
    · obtain ⟨hts, hlen⟩ := filter_key_totalSize st.recs old hnd hmem
      rw [hkey] at hts hlen
      simp only [cacheSet, hfind, if_neg hgrow]
      refine ⟨nodupKeys_write _ key size st.clock hnd, ?_⟩
      rw [totalSize_write]
      rcases hinv with h | h
      · exact Or.inl (by omega)
      · refine Or.inr ?_
        rw [List.length_append]
        simp only [List.length_cons, List.length_nil]
        omega

theorem cacheRun_inv (limit : Nat) (ops : List CacheOp) :
    ∀ (st : CacheState), nodupKeys st.recs →
      (totalSize st.recs ≤ limit ∨ st.recs.length ≤ 2) →
      nodupKeys (cacheRun (some limit) st ops).recs ∧
        (totalSize (cacheRun (some limit) st ops).recs ≤ limit ∨
          (cacheRun (some limit) st ops).recs.length ≤ 2) := by
  induction ops with
  | nil => intro st hnd hinv; exact ⟨hnd, hinv⟩
  | cons op ops ih =>
    intro st hnd hinv
    cases op with
    | set key size =>
      obtain ⟨h1, h2⟩ := cacheSet_inv limit st key size hnd hinv
      exact ih _ h1 h2
    | del key =>
      refine ih _ (nodupKeys_filter _ _ hnd) ?_
      rcases hinv with h | h
      · exact Or.inl (Nat.le_trans (totalSize_filter_le _ _) h)
      · exact Or.inr (Nat.le_trans (List.length_filter_le _ _) h)
    | clear =>
      refine ih _ (by simp [nodupKeys, cacheClear]) ?_
      simp [cacheClear, totalSize]

/-- C4 (amended).  With a configured size limit: before a growing write,
existing records are evicted strictly oldest-by-creation-time, never the
record being written, and the loop runs until the new total fits or only one
candidate record remains (which is never evicted, even over budget).
Consequently, after every operation sequence on a fresh cache, either the
running total is at most the limit, or at most two records remain — the
just-written record beside the single over-budget survivor (the claim's
"total ≤ limit except a sole surviving record" is not quite what the code
enforces; see the counterexample). -/
theorem file_cache_eviction_amended (limit : Nat) :
    (∀ (ops : List CacheOp),
      totalSize (cacheRun (some limit) cacheInit ops).recs ≤ limit ∨
        (cacheRun (some limit) cacheInit ops).recs.length ≤ 2) ∧
    (∀ (recs : List CacheRec) (excl : Option String) (m : CacheRec),
      oldestExcluding recs excl = some m →
        m ∈ recs ∧ excl ≠ some m.key ∧
          ∀ r ∈ recs, excl ≠ some r.key → m.time ≤ r.time) ∧
    (∀ (need : Nat) (excl : Option String) (recs : List CacheRec),
      nodupKeys recs →
        totalSize (cacheEvict limit need excl recs) + need ≤ limit ∨
          (cacheEvict limit need excl recs).length ≤ 1) := by
  refine ⟨?_, fun recs excl m h => oldestExcluding_spec recs excl m h, ?_⟩
  · intro ops
    exact (cacheRun_inv limit ops cacheInit (by simp [nodupKeys, cacheInit])
      (Or.inl (by simp [cacheInit, totalSize]))).2
  · intro need excl recs hnd
    exact (cacheEvictGo_spec limit need excl recs.length recs (Nat.le_refl _) hnd).1

/-- C4 witness: the bound holds on the counterexample run (two records stay,
over budget), the eviction pick on a concrete list is the oldest non-excluded
record, and the loop bound holds on a concrete stuffed cache. -/
theorem file_cache_eviction_amended_witness :
    (totalSize (cacheRun (some 100) cacheInit [.set "a" 60, .set "b" 60]).recs ≤ 100 ∨
      (cacheRun (some 100) cacheInit [.set "a" 60, .set "b" 60]).recs.length ≤ 2) ∧
    ((⟨"a", 60, 0⟩ : CacheRec) ∈ [(⟨"a", 60, 0⟩ : CacheRec), ⟨"b", 70, 1⟩] ∧
      (some "b" : Option String) ≠ some "a" ∧
      ∀ r ∈ [(⟨"a", 60, 0⟩ : CacheRec), ⟨"b", 70, 1⟩],
        (some "b" : Option String) ≠ some r.key → (0 : Nat) ≤ r.time) := by
  constructor
  · exact (file_cache_eviction_amended 100).1 [.set "a" 60, .set "b" 60]
  · exact (file_cache_eviction_amended 100).2.1
      [(⟨"a", 60, 0⟩ : CacheRec), ⟨"b", 70, 1⟩] (some "b") ⟨"a", 60, 0⟩ (by decide)

end OHAci
